import Mathlib

/-!
Verification of the COPY codec core of this repository: the scalar string
conversion routines and generic list literal parser/formatter of
`src/repr/src/strconv.rs`, and the binary COPY row encoder of
`src/pgcopy/src/to/binary.rs` with the narrowing casts of
`src/pgcopy/src/cast.rs`.

Conventions of the shallow embedding:
- byte buffers are `List Nat` (each entry a byte value);
- textual input is `List Char` or `String`;
- fallible Rust functions returning `Result<_, E>` become `Except String _`,
  with the error message text embedded from the source (apostrophes and brace
  characters in messages are paraphrased in words);
- the higher-order element parser/formatter parameters of `parse_list` /
  `format_list` are function parameters.
-/

namespace Strconv

/-- Rust `char::is_whitespace`, restricted to the ASCII whitespace characters
(all inputs exercised here are ASCII). -/
def isWsp (c : Char) : Bool :=
  c = ' ' || c = '\t' || c = '\n' || c = '\r' || c = '\x0b' || c = '\x0c'

/-- Rust `str::trim`: strips leading and trailing whitespace. -/
def rustTrim (s : List Char) : List Char :=
  ((s.dropWhile isWsp).reverse.dropWhile isWsp).reverse

/-- Rust `str::to_lowercase`, restricted to ASCII letters (all inputs
exercised here are ASCII). -/
def lowerChar (c : Char) : Char :=
  if 'A' ≤ c && c ≤ 'Z' then Char.ofNat (c.toNat + 32) else c

/-- Embedding of `parse_bool` from `src/repr/src/strconv.rs`: trims
whitespace, lowercases, then matches against the fixed literal table. -/
def parseBool (s : String) : Except String Bool :=
  let t : String := String.mk ((rustTrim s.toList).map lowerChar)
  if t = "t" ∨ t = "tr" ∨ t = "tru" ∨ t = "true" ∨ t = "y" ∨ t = "ye" ∨
     t = "yes" ∨ t = "on" ∨ t = "1" then
    Except.ok true
  else if t = "f" ∨ t = "fa" ∨ t = "fal" ∨ t = "fals" ∨ t = "false" ∨
     t = "n" ∨ t = "no" ∨ t = "of" ∨ t = "off" ∨ t = "0" then
    Except.ok false
  else
    Except.error "unable to parse bool"

/-- Scanner mode of the embedded `parse_list` loop from
`src/repr/src/strconv.rs`. The source is a single character-by-character loop
over a peekable iterator with nested inner loops; the embedding runs the same
scan as a state machine consuming one character per step.

- `elemPos`: at the start of an element position (top of the outer loop);
- `quoted acc`: inside a double-quoted element, `acc` holds the unescaped
  text so far;
- `quotedEsc acc`: inside a quoted element, immediately after a backslash;
- `nested acc`: inside a brace element, `acc` holds the text captured so far
  (including the braces consumed so far);
- `unquoted acc`: inside an unquoted element;
- `delim`: after an element, looking for a comma or a closing brace. -/
inductive PlMode where
  | elemPos : PlMode
  | quoted : List Char → PlMode
  | quotedEsc : List Char → PlMode
  | nested : List Char → PlMode
  | unquoted : List Char → PlMode
  | delim : PlMode

/-- The scan loop of `parse_list`, embedded faithfully from the source:

- at an element position, a closing brace ends the list and any remaining
  character is rejected as leftover input; a space is skipped; a double quote
  starts a quoted element; an opening brace starts a nested element whose
  text is captured up to and including the first closing brace (the source
  inner loop breaks at the first closing brace it consumes, with no depth
  counter); a comma ends an empty unquoted element immediately (the source
  unquoted loop breaks on a peeked comma without consuming it); any other
  character starts an unquoted element;
- inside a quoted element, backslash-backslash and backslash-quote are the
  only escapes; an unescaped quote ends it;
- an unquoted element ends at a (peeked) closing brace, comma, or space; its
  trimmed text equal to NULL yields the null constructor instead of the
  element parser;
- after an element, spaces are skipped, then a comma continues with the next
  element and a closing brace ends the list; in the source this final
  closing-brace arm breaks out of the loop at once, without inspecting
  whether input remains. -/
def plRun {T : Type} (mk : Unit → T) (pe : List Char → Except String T) :
    List Char → PlMode → List T → Except String (List T)
  | [], _, _ => Except.error "unexpected end of input"
  | c :: rest, PlMode.elemPos, elems =>
    if c = '}' then
      match rest with
      | [] => Except.ok elems.reverse
      | other :: _ => Except.error ("unexpected leftover input " ++ other.toString)
    else if c = ' ' then plRun mk pe rest PlMode.elemPos elems
    else if c = '"' then plRun mk pe rest (PlMode.quoted []) elems
    else if c = '{' then plRun mk pe rest (PlMode.nested ['{']) elems
    else if c = ',' then
      match pe [] with
      | Except.error e => Except.error e
      | Except.ok v => plRun mk pe rest PlMode.elemPos (v :: elems)
    else plRun mk pe rest (PlMode.unquoted [c]) elems
  | c :: rest, PlMode.quoted acc, elems =>
    if c = '"' then
      match pe acc with
      | Except.error e => Except.error e
      | Except.ok v => plRun mk pe rest PlMode.delim (v :: elems)
    else if c = '\\' then plRun mk pe rest (PlMode.quotedEsc acc) elems
    else plRun mk pe rest (PlMode.quoted (acc ++ [c])) elems
  | c :: rest, PlMode.quotedEsc acc, elems =>
    if c = '\\' ∨ c = '"' then plRun mk pe rest (PlMode.quoted (acc ++ [c])) elems
    else Except.error ("bad escape \\" ++ c.toString)
  | c :: rest, PlMode.nested acc, elems =>
    if c = '}' then
      match pe (acc ++ [c]) with
      | Except.error e => Except.error e
      | Except.ok v => plRun mk pe rest PlMode.delim (v :: elems)
    else plRun mk pe rest (PlMode.nested (acc ++ [c])) elems
  | c :: rest, PlMode.unquoted acc, elems =>
    if c = '}' ∨ c = ',' ∨ c = ' ' then
      match (if rustTrim acc = "NULL".toList then Except.ok (mk ()) else pe acc) with
      | Except.error e => Except.error e
      | Except.ok v =>
        if c = ',' then plRun mk pe rest PlMode.elemPos (v :: elems)
        else if c = '}' then Except.ok (v :: elems).reverse
        else plRun mk pe rest PlMode.delim (v :: elems)
    else plRun mk pe rest (PlMode.unquoted (acc ++ [c])) elems
  | c :: rest, PlMode.delim, elems =>
    if c = ' ' then plRun mk pe rest PlMode.delim elems
    else if c = ',' then plRun mk pe rest PlMode.elemPos elems
    else if c = '}' then Except.ok elems.reverse
    else Except.error ("expected comma or right brace, found " ++ c.toString)

/-- Embedding of `parse_list`: the input must begin with an opening brace,
then the scan loop runs. `mk` is the null constructor and `pe` the element
parser passed by the caller. -/
def parseList {T : Type} (s : String) (mk : Unit → T)
    (pe : List Char → Except String T) : Except String (List T) :=
  match s.toList with
  | [] => Except.error "unexpected end of input"
  | c :: rest =>
    if c = '{' then plRun mk pe rest PlMode.elemPos []
    else Except.error ("expected left brace, found " ++ c.toString)

/-- Whether the formatted representation can be nested in a list without
escaping (`Nestable` in the source). -/
inductive Nestable where
  | Yes : Nestable
  | MayNeedEscaping : Nestable
deriving DecidableEq, Repr

/-- The bytes that force a list element to be escaped: left brace, right
brace, comma, space, double quote, backslash. -/
def listSpecial (b : Nat) : Bool :=
  b = 123 || b = 125 || b = 44 || b = 32 || b = 34 || b = 92

/-- The bytes that receive an extra backslash when a list element is
escaped: double quote (34) and backslash (92). -/
def escSpecial (b : Nat) : Bool :=
  b = 34 || b = 92

/-- The bytes of the literal NULL. -/
def nullBytes : List Nat := [78, 85, 76, 76]

/-- Number of bytes of an element that must be preceded by a backslash. -/
def countEsc (e : List Nat) : Nat := (e.filter escSpecial).length

/-- The element bytes with a backslash inserted before every double quote or
backslash (the body of the escaped form, between the surrounding quotes). -/
def escBytes (e : List Nat) : List Nat :=
  e.foldr (fun b acc => (if escSpecial b then [92, b] else [b]) ++ acc) []

/-- The backward walk of `escape_list_elem`: processes source indices
`start + k - 1, ..., start` (the original element content), writing each
byte at the current write index `wi` and an extra backslash below it when the
byte is a quote or backslash, exactly as the source loop does. Returns the
final buffer and the write index left after the loop (the index at which the
source then writes the opening quote). -/
def escLoop : List Nat → Nat → Nat → Nat → List Nat × Nat
  | buf, 0, _, wi => (buf, wi)
  | buf, k + 1, start, wi =>
    if escSpecial (buf.getD (start + k) 0) then
      escLoop ((buf.set wi (buf.getD (start + k) 0)).set (wi - 1) 92) k start (wi - 2)
    else
      escLoop (buf.set wi (buf.getD (start + k) 0)) k start (wi - 1)

/-- The unconditional rewrite of `escape_list_elem` (the part after the
needs-escaping test): computes the extra byte count (2 quotes plus one per
quote-or-backslash byte), pads the buffer, writes the closing quote at the
new end, runs the backward walk, and writes the opening quote at the final
write index. Returns the rewritten buffer and that final write index (the
source asserts it equals `start`). -/
def escapeRewrite (buf : List Nat) (start : Nat) : List Nat × Nat :=
  let elemBytes := buf.drop start
  let extras := 2 + countEsc elemBytes
  let origEnd := buf.length
  let newEnd := origEnd + extras
  let buf1 := buf ++ List.replicate extras 0
  let buf2 := buf1.set (newEnd - 1) 34
  let r := escLoop buf2 (origEnd - start) start (newEnd - 2)
  (r.1.set r.2 34, r.2)

/-- Embedding of `escape_list_elem`: the element extends from `start` to the
end of the buffer; it is left unchanged when it is non-empty, not the literal
NULL, and free of the special bytes, and otherwise rewritten in place. -/
def escapeListElem (buf : List Nat) (start : Nat) : List Nat :=
  let elemBytes := buf.drop start
  if !elemBytes.isEmpty && elemBytes != nullBytes && !(elemBytes.any listSpecial) then buf
  else (escapeRewrite buf start).1

/-- The per-element loop of `format_list`: records the start offset, runs the
element formatter, escapes the just-written element in place when the
formatter reports `MayNeedEscaping`, and writes a comma between elements. -/
def formatListGo {T : Type} (fmt : List Nat → T → List Nat × Nestable) :
    List Nat → List T → List Nat
  | buf, [] => buf ++ [125]
  | buf, e :: rest =>
    let start := buf.length
    let p := fmt buf e
    let buf1 :=
      match p.2 with
      | Nestable.MayNeedEscaping => escapeListElem p.1 start
      | Nestable.Yes => p.1
    match rest with
    | [] => buf1 ++ [125]
    | _ :: _ => formatListGo fmt (buf1 ++ [44]) rest

/-- Embedding of `format_list`: writes an opening brace, formats the elements
separated by commas with in-place escaping as needed, writes the closing
brace, and always reports `Nestable.Yes`. -/
def formatList {T : Type} (buf : List Nat) (elems : List T)
    (fmt : List Nat → T → List Nat × Nestable) : List Nat × Nestable :=
  (formatListGo fmt (buf ++ [123]) elems, Nestable.Yes)

end Strconv

namespace Pgcopy

/-- Embedding of `cast::i16` from `src/pgcopy/src/cast.rs`, specialized to a
nonnegative (usize) argument: succeeds iff the value fits into an `i16`,
otherwise fails with the context label followed by the fixed message. -/
def castI16 (cx : String) (v : Nat) : Except String Nat :=
  if v ≤ 32767 then Except.ok v
  else Except.error (cx ++ " does not fit into an i16")

/-- State of the binary COPY encoder (`CopyToBinary` in
`src/pgcopy/src/to/binary.rs`): the narrowed field count and the output byte
buffer. The external per-column type information does not influence the bytes
produced by the embedded code and is omitted. -/
structure CopyToBinary where
  field_count : Nat
  out_buf : List Nat
deriving DecidableEq, Repr

/-- The fixed 11-byte COPY binary signature `PGCOPY\n\xFF\r\n\0`. -/
def signature : List Nat := [80, 71, 67, 79, 80, 89, 10, 255, 13, 10, 0]

/-- The 4-byte big-endian encoding of the 32-bit value -1, used as the NULL
field marker (`NULL_ENCODING` in the source). -/
def NULL_ENCODING : List Nat := [255, 255, 255, 255]

/-- Embedding of `CopyToBinary::new`: narrows the schema arity to an i16 via
`cast::i16("field count", _)` and initializes the output buffer with the
signature, the all-zero flags field, and the all-zero header extension length
field. -/
def CopyToBinary.new (arity : Nat) : Except String CopyToBinary :=
  match castI16 "field count" arity with
  | Except.error e => Except.error e
  | Except.ok fc =>
    Except.ok { field_count := fc, out_buf := signature ++ [0, 0, 0, 0] ++ [0, 0, 0, 0] }

/-- Big-endian bytes of a 16-bit value (arguments here are always at most
32767, the nonnegative range of an i16). -/
def be16 (n : Nat) : List Nat := [n / 256 % 256, n % 256]

/-- A datum of a row: `none` is a NULL, `some p` is a non-null value whose
externally produced binary payload would be `p`. -/
def Datum := Option (List Nat)

/-- Bytes appended to `out_buf` by one `encode_row` call in the source: the
field count as 16-bit big-endian, then per datum either `NULL_ENCODING` for a
NULL, or nothing for a non-null datum. (The source's non-null arm clears the
scratch buffer and invokes the external `encode_binary` on a buffer named
`buf` that is not bound anywhere in the function; no length prefix and no
payload byte is ever appended to `out_buf`.) -/
def rowBytes (fc : Nat) (row : List (Option (List Nat))) : List Nat :=
  be16 fc ++ row.foldr
    (fun d acc =>
      (match d with
       | none => NULL_ENCODING
       | some _ => []) ++ acc)
    []

/-- Embedding of `CopyToBinary::encode_row`: appends `rowBytes` to the output
buffer. -/
def encodeRow (st : CopyToBinary) (row : List (Option (List Nat))) : CopyToBinary :=
  { st with out_buf := st.out_buf ++ rowBytes st.field_count row }

/-- Embedding of `CopyToBinary::flush`: returns the accumulated bytes and
clears the output buffer (Rust `mem::take`). -/
def flush (st : CopyToBinary) : List Nat × CopyToBinary :=
  (st.out_buf, { st with out_buf := [] })

/-- Embedding of `CopyToBinary::finish`: appends the 2-byte trailer (16-bit
value -1, big-endian) and returns the accumulated bytes. -/
def finish (st : CopyToBinary) : List Nat :=
  st.out_buf ++ [255, 255]

/-- A script of operations performed on an open encoder. -/
inductive CopyOp where
  | enc : List (Option (List Nat)) → CopyOp
  | flushOp : CopyOp

/-- Runs a script of encode/flush operations, returning the final encoder
state and the list of chunks returned by the flush calls, in order. -/
def runOps (st : CopyToBinary) : List CopyOp → CopyToBinary × List (List Nat)
  | [] => (st, [])
  | CopyOp.enc r :: rest => runOps (encodeRow st r) rest
  | CopyOp.flushOp :: rest =>
    let p := flush st
    let q := runOps p.2 rest
    (q.1, p.1 :: q.2)

/-- The rows encoded by a script, in order, with the flushes erased. -/
def rowsOf : List CopyOp → List (List (Option (List Nat)))
  | [] => []
  | CopyOp.enc r :: rest => r :: rowsOf rest
  | CopyOp.flushOp :: rest => rowsOf rest

/-- Runs only encode calls, with no intermediate flushes. -/
def runRows (st : CopyToBinary) (rows : List (List (Option (List Nat)))) : CopyToBinary :=
  rows.foldl encodeRow st

theorem runRows_spec (rows : List (List (Option (List Nat)))) :
    ∀ st : CopyToBinary,
      (runRows st rows).field_count = st.field_count ∧
      (runRows st rows).out_buf =
        st.out_buf ++ (rows.map (rowBytes st.field_count)).flatten := by
  induction rows with
  | nil => intro st; simp [runRows]
  | cons r rest ih =>
    intro st
    have h := ih (encodeRow st r)
    constructor
    · simpa [runRows, encodeRow] using h.1
    · simpa [runRows, encodeRow] using h.2

/-- C5: for every schema arity that fits in an i16, construction succeeds and
the output buffer is exactly the 11-byte signature followed by the 4 zero
flag bytes and the 4 zero header-extension-length bytes (19 bytes total);
for every arity above 32767, construction fails with the range error whose
message carries the context label and says it does not fit into an i16. -/
theorem new_header_and_range (arity : Nat) :
    (arity ≤ 32767 →
       CopyToBinary.new arity =
         Except.ok { field_count := arity,
                     out_buf := signature ++ [0, 0, 0, 0] ++ [0, 0, 0, 0] } ∧
       ∀ st : CopyToBinary, CopyToBinary.new arity = Except.ok st →
         st.out_buf.take 11 = signature ∧ st.out_buf.length = 19) ∧
    (32767 < arity →
       CopyToBinary.new arity =
         Except.error "field count does not fit into an i16") := by
  constructor
  · intro h
    have hok : CopyToBinary.new arity =
        Except.ok { field_count := arity,
                    out_buf := signature ++ [0, 0, 0, 0] ++ [0, 0, 0, 0] } := by
      simp [CopyToBinary.new, castI16, h]
    refine ⟨hok, ?_⟩
    intro st hst
    rw [hok] at hst
    cases hst
    constructor
    · exact (by decide :
        (signature ++ [0, 0, 0, 0] ++ [0, 0, 0, 0]).take 11 = signature)
    · exact (by decide :
        (signature ++ [0, 0, 0, 0] ++ [0, 0, 0, 0]).length = 19)
  · intro h
    simp [CopyToBinary.new, castI16, Nat.not_le.mpr h]

theorem new_header_and_range_witness :
    (CopyToBinary.new 3 =
       Except.ok { field_count := 3,
                   out_buf := signature ++ [0, 0, 0, 0] ++ [0, 0, 0, 0] } ∧
     ∀ st : CopyToBinary, CopyToBinary.new 3 = Except.ok st →
       st.out_buf.take 11 = signature ∧ st.out_buf.length = 19) ∧
    CopyToBinary.new 40000 =
      Except.error "field count does not fit into an i16" :=
  ⟨(new_header_and_range 3).1 (by decide),
   (new_header_and_range 40000).2 (by decide)⟩

/-- C4 (evaluation at the failing input): encoding the 3-column row
(42, NULL, "x") on a fresh encoder appends only the field count bytes 00 03
and the NULL marker FF FF FF FF: the source's non-null arm never appends a
length prefix or payload to the output buffer (it writes the value into an
unbound buffer named buf), contradicting the claimed length-prefixed payload
framing for the non-null fields. -/
theorem encode_row_drops_nonnull_fields :
    (CopyToBinary.new 3).map
        (fun st => (encodeRow st [some [0, 0, 0, 42], none, some [120]]).out_buf) =
      Except.ok (signature ++ [0, 0, 0, 0] ++ [0, 0, 0, 0] ++
        [0, 3, 255, 255, 255, 255]) := by
  rfl

/-- C9: interleaving flush calls with encode calls does not alter the logical
byte stream: the concatenation of all flushed chunks with the bytes returned
by the final finish equals the stream obtained by encoding the same rows with
no intermediate flushes, and the encoder state (its field count) is
unaffected by the script. -/
theorem flush_stream_equiv (ops : List CopyOp) :
    ∀ st : CopyToBinary,
      (runOps st ops).2.flatten ++ finish (runOps st ops).1 =
        finish (runRows st (rowsOf ops)) ∧
      (runOps st ops).1.field_count = st.field_count := by
  induction ops with
  | nil => intro st; simp [runOps, rowsOf, runRows]
  | cons op rest ih =>
    intro st
    cases op with
    | enc r =>
      have h := ih (encodeRow st r)
      constructor
      · simpa [runOps, rowsOf, runRows] using h.1
      · simpa [runOps, encodeRow] using h.2
    | flushOp =>
      have h := ih { st with out_buf := [] }
      have hrr := runRows_spec (rowsOf rest) { st with out_buf := [] }
      have hrr' := runRows_spec (rowsOf rest) st
      constructor
      · simp only [runOps, rowsOf, flush, List.flatten_cons, List.append_assoc]
        rw [h.1]
        simp [finish, hrr.2, hrr'.2]
      · simpa [runOps, flush] using h.2

end Pgcopy

namespace Strconv

/-- C8 (counterexample to the claim as stated): parse_bool applied to "YES"
succeeds with true, because the input is lowercased before the literal-table
match; the claim says it returns an error. -/
theorem parseBool_YES_ok : parseBool "YES" = Except.ok true := by rfl

/-- C8 (amended): parse_bool matches case-insensitively after trimming, so
both "YES" and " on " parse to true. -/
theorem parseBool_case_insensitive :
    parseBool "YES" = Except.ok true ∧ parseBool " on " = Except.ok true := by
  exact ⟨rfl, rfl⟩

/-- C6 (evaluation at the failing input): parsing the depth-3 input whose
characters spell three opening braces, x, and three closing braces, with an
element parser that returns the captured text verbatim, hands the element
parser the unbalanced text consisting of two opening braces, x, and a single
closing brace — the source inner loop stops at the first closing brace it
consumes instead of the matching one — and then treats the next closing
brace as the end of the list, silently dropping the final one. The claim
requires the entire balanced-brace substring (two opening braces, x, two
closing braces) to be captured. -/
theorem parseList_nested_capture_unbalanced :
    parseList (String.mk ['{', '{', '{', 'x', '}', '}', '}'])
        (fun _ => ([] : List Char)) (fun t => Except.ok t) =
      Except.ok [['{', '{', 'x', '}']] := by
  rfl

/-- C7 (evaluation at the failing input): parsing the input consisting of an
opening brace, the digit 1, a closing brace, and a trailing x succeeds with
the single element 1 — the source breaks out of the loop on the closing
brace seen at the delimiter position without checking for leftover input —
whereas the claim requires the parse to fail with an unexpected-leftover
error for every input with characters after the closing brace. -/
theorem parseList_accepts_leftover_after_elem :
    parseList (String.mk ['{', '1', '}', 'x'])
        (fun _ => ([] : List Char)) (fun t => Except.ok t) =
      Except.ok [['1']] := by
  rfl

/-- C10: the empty list literal (with or without interior spaces) parses to
the empty vector for every null constructor and element parser (so neither
can have been consulted), format_list of an empty element slice writes
exactly the two brace characters and reports `Nestable.Yes`, and the empty
list round-trips through format_list and parse_list. -/
theorem empty_list_parse_format_round_trip :
    ∀ (T : Type) (mk : Unit → T) (pe : List Char → Except String T)
      (U : Type) (fmt : List Nat → U → List Nat × Nestable),
      parseList (String.mk ['{', '}']) mk pe = Except.ok [] ∧
      parseList (String.mk ['{', ' ', '}']) mk pe = Except.ok [] ∧
      formatList [] ([] : List U) fmt = ([123, 125], Nestable.Yes) ∧
      parseList (String.mk ((formatList [] ([] : List U) fmt).1.map Char.ofNat))
          mk pe = Except.ok [] := by
  intro T mk pe U fmt
  exact ⟨rfl, rfl, rfl, rfl⟩

theorem getD_oob (l : List Nat) (i : Nat) (h : l.length ≤ i) : l.getD i 0 = 0 := by
  induction l generalizing i with
  | nil => simp
  | cons a t ih =>
    cases i with
    | zero => simp at h
    | succ n => simpa using ih n (by simpa using h)

theorem getD_set_eq (l : List Nat) (i v : Nat) (h : i < l.length) :
    (l.set i v).getD i 0 = v := by
  induction l generalizing i with
  | nil => simp at h
  | cons a t ih =>
    cases i with
    | zero => simp
    | succ n => simpa using ih n (by simpa using h)

theorem getD_set_ne (l : List Nat) (i j v : Nat) (h : i ≠ j) :
    (l.set i v).getD j 0 = l.getD j 0 := by
  induction l generalizing i j with
  | nil => simp
  | cons a t ih =>
    cases i with
    | zero =>
      cases j with
      | zero => exact absurd rfl h
      | succ m => simp
    | succ n =>
      cases j with
      | zero => simp
      | succ m => simpa using ih n m (fun hh => h (by rw [hh]))

theorem getD_append_left (l1 l2 : List Nat) (i : Nat) (h : i < l1.length) :
    (l1 ++ l2).getD i 0 = l1.getD i 0 := by
  induction l1 generalizing i with
  | nil => simp at h
  | cons a t ih =>
    cases i with
    | zero => simp
    | succ n => simpa using ih n (by simpa using h)

theorem getD_append_right (l1 l2 : List Nat) (i : Nat) (h : l1.length ≤ i) :
    (l1 ++ l2).getD i 0 = l2.getD (i - l1.length) 0 := by
  induction l1 generalizing i with
  | nil => simp
  | cons a t ih =>
    cases i with
    | zero => simp at h
    | succ n => simpa using ih n (by simpa using h)

theorem getD_drop (l : List Nat) (s i : Nat) : (l.drop s).getD i 0 = l.getD (s + i) 0 := by
  induction l generalizing s with
  | nil => simp
  | cons a t ih =>
    cases s with
    | zero => simp
    | succ n =>
      have h := ih n
      simp [Nat.succ_add, h]

theorem getD_take (l : List Nat) (s i : Nat) (h : i < s) :
    (l.take s).getD i 0 = l.getD i 0 := by
  induction l generalizing s i with
  | nil => simp
  | cons a t ih =>
    cases s with
    | zero => simp at h
    | succ n =>
      cases i with
      | zero => simp
      | succ m => simpa using ih n m (by omega)

theorem eq_of_getD (l1 : List Nat) : ∀ l2 : List Nat, l1.length = l2.length →
    (∀ j, l1.getD j 0 = l2.getD j 0) → l1 = l2 := by
  induction l1 with
  | nil =>
    intro l2 hlen _
    cases l2 with
    | nil => rfl
    | cons b u => simp at hlen
  | cons a t ih =>
    intro l2 hlen h
    cases l2 with
    | nil => simp at hlen
    | cons b u =>
      have h0 := h 0
      simp at h0
      have ht := ih u (by simpa using hlen) (fun j => by simpa using h (j + 1))
      rw [h0, ht]

theorem countEsc_append (a b : List Nat) :
    countEsc (a ++ b) = countEsc a + countEsc b := by
  simp [countEsc, List.filter_append]

theorem escBytes_append (a b : List Nat) :
    escBytes (a ++ b) = escBytes a ++ escBytes b := by
  induction a with
  | nil => simp [escBytes]
  | cons x t ih => simp [escBytes, List.append_assoc] at ih ⊢; rw [ih]

theorem escBytes_length (e : List Nat) :
    (escBytes e).length = e.length + countEsc e := by
  induction e with
  | nil => rfl
  | cons b t ih =>
    by_cases hb : escSpecial b
    · simp [escBytes, countEsc, List.filter_cons, hb] at ih ⊢
      omega
    · simp [escBytes, countEsc, List.filter_cons, hb] at ih ⊢
      omega

theorem escLoop_spec (e : List Nat) :
    ∀ (buf : List Nat) (start : Nat),
      (∀ i, i < e.length → buf.getD (start + i) 0 = e.getD i 0) →
      start + e.length + countEsc e < buf.length →
      (escLoop buf e.length start (start + e.length + countEsc e)).2 = start ∧
      (escLoop buf e.length start (start + e.length + countEsc e)).1.length = buf.length ∧
      ∀ j, (escLoop buf e.length start (start + e.length + countEsc e)).1.getD j 0 =
        if start < j ∧ j ≤ start + e.length + countEsc e
        then (escBytes e).getD (j - (start + 1)) 0
        else buf.getD j 0 := by
  induction e using List.reverseRecOn with
  | nil =>
    intro buf start _ _
    refine ⟨by simp [escLoop, countEsc], by simp [escLoop, countEsc], ?_⟩
    intro j
    have hc : countEsc ([] : List Nat) = 0 := rfl
    simp only [List.length_nil, hc, Nat.add_zero, escLoop]
    rw [if_neg (by omega)]
  | append_singleton e' b ih =>
    intro buf start hagree hlt
    have hlen : (e' ++ [b]).length = e'.length + 1 := by simp
    have hread : buf.getD (start + e'.length) 0 = b := by
      have h1 := hagree e'.length (by simp)
      have h2 : (e' ++ [b]).getD e'.length 0 = b := by
        rw [getD_append_right e' [b] e'.length (Nat.le_refl e'.length)]
        simp
      rw [h1, h2]
    by_cases hsb : escSpecial b
    · have hce : countEsc (e' ++ [b]) = countEsc e' + 1 := by
        rw [countEsc_append]
        have : countEsc [b] = 1 := by simp [countEsc, List.filter_cons, hsb]
        rw [this]
      have hEB : escBytes (e' ++ [b]) = escBytes e' ++ [92, b] := by
        rw [escBytes_append]
        have : escBytes [b] = [92, b] := by simp [escBytes, hsb]
        rw [this]
      rw [hlen, hce] at hlt ⊢
      rw [hEB]
      simp only [escLoop]
      rw [hread, if_pos hsb]
      have hW2 : start + (e'.length + 1) + (countEsc e' + 1) - 2 =
          start + e'.length + countEsc e' := by omega
      rw [hW2]
      have hlb : ((buf.set (start + (e'.length + 1) + (countEsc e' + 1)) b).set
          (start + (e'.length + 1) + (countEsc e' + 1) - 1) 92).length = buf.length := by
        simp
      have hagree2 : ∀ i, i < e'.length →
          ((buf.set (start + (e'.length + 1) + (countEsc e' + 1)) b).set
            (start + (e'.length + 1) + (countEsc e' + 1) - 1) 92).getD (start + i) 0 =
          e'.getD i 0 := by
        intro i hi
        rw [getD_set_ne _ _ _ _ (by omega)]
        rw [getD_set_ne _ _ _ _ (by omega)]
        rw [hagree i (by simp; omega)]
        exact getD_append_left e' [b] i hi
      have hlt2 : start + e'.length + countEsc e' <
          ((buf.set (start + (e'.length + 1) + (countEsc e' + 1)) b).set
            (start + (e'.length + 1) + (countEsc e' + 1) - 1) 92).length := by
        rw [hlb]; omega
      obtain ⟨ih1, ih2, ih3⟩ := ih _ start hagree2 hlt2
      refine ⟨ih1, by rw [ih2, hlb], ?_⟩
      intro j
      rw [ih3 j]
      have hEBlen : (escBytes e').length = e'.length + countEsc e' :=
        escBytes_length e'
      by_cases hj1 : start < j ∧ j ≤ start + e'.length + countEsc e'
      · rw [if_pos hj1, if_pos (by omega)]
        rw [getD_append_left _ _ _ (by rw [hEBlen]; omega)]
      · rw [if_neg hj1]
        by_cases hj2 : j = start + (e'.length + 1) + (countEsc e' + 1) - 1
        · rw [hj2]
          rw [getD_set_eq _ _ 92 (by simp; omega)]
          rw [if_pos (by omega)]
          rw [getD_append_right _ _ _ (by rw [hEBlen]; omega)]
          have h0 : start + (e'.length + 1) + (countEsc e' + 1) - 1 - (start + 1) -
              (escBytes e').length = 0 := by rw [hEBlen]; omega
          rw [h0]
          rfl
        · by_cases hj3 : j = start + (e'.length + 1) + (countEsc e' + 1)
          · rw [hj3]
            rw [getD_set_ne _ _ _ _ (by omega)]
            rw [getD_set_eq _ _ b (by omega)]
            rw [if_pos (by omega)]
            rw [getD_append_right _ _ _ (by rw [hEBlen]; omega)]
            have h1 : start + (e'.length + 1) + (countEsc e' + 1) - (start + 1) -
                (escBytes e').length = 1 := by rw [hEBlen]; omega
            rw [h1]
            rfl
          · rw [getD_set_ne _ _ _ _ (by omega)]
            rw [getD_set_ne _ _ _ _ (by omega)]
            rw [if_neg (by omega)]
    · have hce : countEsc (e' ++ [b]) = countEsc e' := by
        rw [countEsc_append]
        have h0 : countEsc [b] = 0 := by simp [countEsc, List.filter_cons, hsb]
        rw [h0]
        omega
      have hEB : escBytes (e' ++ [b]) = escBytes e' ++ [b] := by
        rw [escBytes_append]
        have : escBytes [b] = [b] := by simp [escBytes, hsb]
        rw [this]
      rw [hlen, hce] at hlt ⊢
      rw [hEB]
      simp only [escLoop]
      rw [hread, if_neg hsb]
      have hW1 : start + (e'.length + 1) + countEsc e' - 1 =
          start + e'.length + countEsc e' := by omega
      rw [hW1]
      have hlb : (buf.set (start + (e'.length + 1) + countEsc e') b).length =
          buf.length := by simp
      have hagree2 : ∀ i, i < e'.length →
          (buf.set (start + (e'.length + 1) + countEsc e') b).getD (start + i) 0 =
          e'.getD i 0 := by
        intro i hi
        rw [getD_set_ne _ _ _ _ (by omega)]
        rw [hagree i (by simp; omega)]
        exact getD_append_left e' [b] i hi
      have hlt2 : start + e'.length + countEsc e' <
          (buf.set (start + (e'.length + 1) + countEsc e') b).length := by
        rw [hlb]; omega
      obtain ⟨ih1, ih2, ih3⟩ := ih _ start hagree2 hlt2
      refine ⟨ih1, by rw [ih2, hlb], ?_⟩
      intro j
      rw [ih3 j]
      have hEBlen : (escBytes e').length = e'.length + countEsc e' :=
        escBytes_length e'
      by_cases hj1 : start < j ∧ j ≤ start + e'.length + countEsc e'
      · rw [if_pos hj1, if_pos (by omega)]
        rw [getD_append_left _ _ _ (by rw [hEBlen]; omega)]
      · rw [if_neg hj1]
        by_cases hj2 : j = start + (e'.length + 1) + countEsc e'
        · rw [hj2]
          rw [getD_set_eq _ _ b (by omega)]
          rw [if_pos (by omega)]
          rw [getD_append_right _ _ _ (by rw [hEBlen]; omega)]
          have h0 : start + (e'.length + 1) + countEsc e' - (start + 1) -
              (escBytes e').length = 0 := by rw [hEBlen]; omega
          rw [h0]
          rfl
        · rw [getD_set_ne _ _ _ _ (by omega)]
          rw [if_neg (by omega)]

theorem escLoop_spec_at (e buf : List Nat) (start m wi : Nat)
    (hm : m = e.length)
    (hwi : wi = start + e.length + countEsc e)
    (hagree : ∀ i, i < e.length → buf.getD (start + i) 0 = e.getD i 0)
    (hlt : start + e.length + countEsc e < buf.length) :
    (escLoop buf m start wi).2 = start ∧
    (escLoop buf m start wi).1.length = buf.length ∧
    ∀ j, (escLoop buf m start wi).1.getD j 0 =
      if start < j ∧ j ≤ start + e.length + countEsc e
      then (escBytes e).getD (j - (start + 1)) 0
      else buf.getD j 0 := by
  subst hm
  subst hwi
  exact escLoop_spec e buf start hagree hlt

theorem escapeRewrite_spec (buf : List Nat) (start : Nat) (h : start ≤ buf.length) :
    (escapeRewrite buf start).2 = start ∧
    (escapeRewrite buf start).1 =
      buf.take start ++ [34] ++ escBytes (buf.drop start) ++ [34] := by
  have hn : (buf.drop start).length = buf.length - start := List.length_drop _ _
  have hesclen : (escBytes (buf.drop start)).length =
      (buf.drop start).length + countEsc (buf.drop start) := escBytes_length _
  have htake : (buf.take start).length = start := by
    rw [List.length_take]
    omega
  have h34 : ([34] : List Nat).length = 1 := rfl
  set B2 := (buf ++ List.replicate (2 + countEsc (buf.drop start)) 0).set
      (buf.length + (2 + countEsc (buf.drop start)) - 1) 34 with hB2
  set L := escLoop B2 (buf.length - start) start
      (buf.length + (2 + countEsc (buf.drop start)) - 2) with hL
  have hdef : escapeRewrite buf start = (L.1.set L.2 34, L.2) := rfl
  have hB2len : B2.length = buf.length + (2 + countEsc (buf.drop start)) := by
    rw [hB2]
    simp
  have hagree : ∀ i, i < (buf.drop start).length →
      B2.getD (start + i) 0 = (buf.drop start).getD i 0 := by
    intro i hi
    have hi' : start + i < buf.length := by omega
    rw [hB2]
    rw [getD_set_ne _ _ _ _ (by omega)]
    rw [getD_append_left _ _ _ hi']
    rw [getD_drop]
  have hlt : start + (buf.drop start).length + countEsc (buf.drop start) < B2.length := by
    rw [hB2len]
    omega
  obtain ⟨k1, k2, k3⟩ := escLoop_spec_at (buf.drop start) B2 start
    (buf.length - start) (buf.length + (2 + countEsc (buf.drop start)) - 2)
    (by omega) (by omega) hagree hlt
  rw [← hL] at k1 k2 k3
  -- facts about the target list, which associates as ((take ++ [34]) ++ esc) ++ [34]
  have hYlen : (buf.take start ++ [34]).length = start + 1 := by
    simp only [List.length_append, htake, h34]
  have hXlen : (buf.take start ++ [34] ++ escBytes (buf.drop start)).length =
      start + 1 + (escBytes (buf.drop start)).length := by
    simp only [List.length_append, htake, h34]
  have ht1 : ∀ j, j < start →
      (buf.take start ++ [34] ++ escBytes (buf.drop start) ++ [34]).getD j 0 =
        buf.getD j 0 := by
    intro j hj
    rw [getD_append_left _ _ _ (by omega)]
    rw [getD_append_left _ _ _ (by omega)]
    rw [getD_append_left _ _ _ (by omega)]
    exact getD_take _ _ _ hj
  have ht2 : (buf.take start ++ [34] ++ escBytes (buf.drop start) ++ [34]).getD start 0 =
      34 := by
    rw [getD_append_left _ _ _ (by omega)]
    rw [getD_append_left _ _ _ (by omega)]
    rw [getD_append_right _ _ _ (by omega)]
    have e1 : start - (buf.take start).length = 0 := by omega
    rw [e1]
    rfl
  have ht3 : ∀ j, start < j →
      j ≤ start + (buf.drop start).length + countEsc (buf.drop start) →
      (buf.take start ++ [34] ++ escBytes (buf.drop start) ++ [34]).getD j 0 =
        (escBytes (buf.drop start)).getD (j - (start + 1)) 0 := by
    intro j hj1 hj2
    rw [getD_append_left _ _ _ (by omega)]
    rw [getD_append_right _ _ _ (by omega)]
    have e3 : j - (buf.take start ++ [34]).length = j - (start + 1) := by
      omega
    rw [e3]
  have ht4 : (buf.take start ++ [34] ++ escBytes (buf.drop start) ++ [34]).getD
      (buf.length + countEsc (buf.drop start) + 1) 0 = 34 := by
    rw [getD_append_right _ _ _ (by omega)]
    have e4 : buf.length + countEsc (buf.drop start) + 1 -
        (buf.take start ++ [34] ++ escBytes (buf.drop start)).length = 0 := by
      omega
    rw [e4]
    rfl
  have htlen : (buf.take start ++ [34] ++ escBytes (buf.drop start) ++ [34]).length =
      buf.length + (2 + countEsc (buf.drop start)) := by
    simp only [List.length_append, htake, h34, hesclen]
    omega
  have ht5 : ∀ j, buf.length + (2 + countEsc (buf.drop start)) ≤ j →
      (buf.take start ++ [34] ++ escBytes (buf.drop start) ++ [34]).getD j 0 = 0 := by
    intro j hj
    exact getD_oob _ _ (by omega)
  refine ⟨by rw [hdef]; exact k1, ?_⟩
  rw [hdef]
  rw [k1]
  apply eq_of_getD
  · rw [List.length_set, k2, hB2len, htlen]
  · intro j
    by_cases hj0 : j < start
    · rw [getD_set_ne _ _ _ _ (by omega)]
      rw [k3 j, if_neg (by omega)]
      rw [hB2]
      rw [getD_set_ne _ _ _ _ (by omega)]
      rw [getD_append_left _ _ _ (by omega)]
      rw [ht1 j hj0]
    · by_cases hj1 : j = start
      · rw [hj1]
        have hlt1 : start < L.1.length := by
          rw [k2, hB2len]
          omega
        rw [getD_set_eq _ _ _ hlt1, ht2]
      · have hjgt : start < j := by omega
        rw [getD_set_ne _ _ _ _ (by omega)]
        rw [k3 j]
        by_cases hj2 : j ≤ start + (buf.drop start).length + countEsc (buf.drop start)
        · rw [if_pos ⟨hjgt, hj2⟩, ht3 j hjgt hj2]
        · rw [if_neg (by omega)]
          by_cases hj3 : j = buf.length + countEsc (buf.drop start) + 1
          · rw [hj3, ht4]
            rw [hB2]
            have e5 : buf.length + (2 + countEsc (buf.drop start)) - 1 =
                buf.length + countEsc (buf.drop start) + 1 := by omega
            rw [e5]
            rw [getD_set_eq _ _ _ (by simp; omega)]
          · have hjbig : buf.length + (2 + countEsc (buf.drop start)) ≤ j := by omega
            rw [ht5 j hjbig]
            rw [hB2]
            rw [getD_set_ne _ _ _ _ (by omega)]
            exact getD_oob _ _ (by simp; omega)

/-- C3: whenever escape_list_elem performs its backward in-place rewrite, the
precomputed extra byte count (2 for the surrounding quotes plus 1 per quote
or backslash byte of the element) exactly accounts for the rewritten form:
the buffer grows by exactly that many bytes, and the final write index after
the backward walk — the index at which the opening quote is written, and
which the source asserts equals the start offset — is exactly the start
offset, so the internal assertion at the end of the algorithm never fails. -/
theorem escapeRewrite_assert_holds (buf : List Nat) (start : Nat)
    (h : start ≤ buf.length)
    (_hneed : buf.drop start = [] ∨ buf.drop start = nullBytes ∨
      (buf.drop start).any listSpecial = true) :
    (escapeRewrite buf start).2 = start ∧
    (escapeRewrite buf start).1.length =
      buf.length + (2 + countEsc (buf.drop start)) := by
  obtain ⟨k1, k2⟩ := escapeRewrite_spec buf start h
  refine ⟨k1, ?_⟩
  rw [k2]
  have h1 : (escBytes (buf.drop start)).length =
      (buf.drop start).length + countEsc (buf.drop start) := escBytes_length _
  have h2 : (buf.drop start).length = buf.length - start := List.length_drop _ _
  have hmin : min start buf.length = start := Nat.min_eq_left h
  simp only [List.length_append, List.length_take, List.length_singleton, hmin]
  omega

theorem escapeRewrite_assert_holds_witness :
    (escapeRewrite [44] 0).2 = 0 ∧
    (escapeRewrite [44] 0).1.length =
      ([44] : List Nat).length + (2 + countEsc (([44] : List Nat).drop 0)) :=
  escapeRewrite_assert_holds [44] 0 (by decide) (Or.inr (Or.inr (by decide)))

/-- C2: the element written between the recorded start offset and the end of
the buffer is left unchanged by escape_list_elem (the rewrite applied by
format_list to every element whose formatter reports MayNeedEscaping) iff it
is non-empty, not the literal NULL, and contains none of the special bytes
(braces, comma, space, double quote, backslash); otherwise the buffer becomes
its prefix before the start offset followed by an opening double quote, the
original element bytes with one backslash inserted before every double quote
or backslash, and a closing double quote; the bytes before the start offset
are never modified. -/
theorem escapeListElem_spec (buf : List Nat) (start : Nat) (h : start ≤ buf.length) :
    (escapeListElem buf start = buf ↔
      (buf.drop start ≠ [] ∧ buf.drop start ≠ nullBytes ∧
       (buf.drop start).any listSpecial = false)) ∧
    ((buf.drop start = [] ∨ buf.drop start = nullBytes ∨
        (buf.drop start).any listSpecial = true) →
      escapeListElem buf start =
        buf.take start ++ [34] ++ escBytes (buf.drop start) ++ [34]) ∧
    (escapeListElem buf start).take start = buf.take start := by
  have hre := (escapeRewrite_spec buf start h).2
  by_cases hcond : (!(buf.drop start).isEmpty && ((buf.drop start) != nullBytes) &&
      !((buf.drop start).any listSpecial)) = true
  · have heq : escapeListElem buf start = buf := by
      simp only [escapeListElem, hcond, if_true]
    have hprops : buf.drop start ≠ [] ∧ buf.drop start ≠ nullBytes ∧
        (buf.drop start).any listSpecial = false := by
      rw [Bool.and_eq_true, Bool.and_eq_true] at hcond
      refine ⟨?_, ?_, ?_⟩
      · have he1 := hcond.1.1
        simp only [Bool.not_eq_true'] at he1
        intro hnil
        rw [hnil] at he1
        simp at he1
      · simpa using hcond.1.2
      · have he3 := hcond.2
        simp only [Bool.not_eq_true'] at he3
        exact he3
    refine ⟨?_, ?_, ?_⟩
    · exact ⟨fun _ => hprops, fun _ => heq⟩
    · intro habs
      rcases habs with h' | h' | h'
      · exact absurd h' hprops.1
      · exact absurd h' hprops.2.1
      · rw [hprops.2.2] at h'
        cases h'
    · rw [heq]
  · have heq : escapeListElem buf start = (escapeRewrite buf start).1 := by
      simp only [escapeListElem]
      rw [if_neg hcond]
    have hprops : ¬ (buf.drop start ≠ [] ∧ buf.drop start ≠ nullBytes ∧
        (buf.drop start).any listSpecial = false) := by
      intro ⟨h1, h2, h3⟩
      exact hcond (by simp [Bool.and_eq_true, Bool.not_eq_true', h1, h2, h3])
    have htarget : escapeListElem buf start =
        buf.take start ++ [34] ++ escBytes (buf.drop start) ++ [34] := by
      rw [heq, hre]
    have hlen : (buf.take start ++ [34] ++ escBytes (buf.drop start) ++ [34]).length =
        buf.length + (2 + countEsc (buf.drop start)) := by
      have h1 : (escBytes (buf.drop start)).length =
          (buf.drop start).length + countEsc (buf.drop start) := escBytes_length _
      have h2 : (buf.drop start).length = buf.length - start := List.length_drop _ _
      have hmin : min start buf.length = start := Nat.min_eq_left h
      simp only [List.length_append, List.length_take, List.length_singleton, hmin]
      omega
    refine ⟨?_, fun _ => htarget, ?_⟩
    · constructor
      · intro hbuf
        exfalso
        have := congrArg List.length (htarget.symm.trans hbuf)
        rw [hlen] at this
        omega
      · intro hp
        exact absurd hp hprops
    · rw [htarget]
      rw [List.take_append_of_le_length (by
        simp only [List.length_append, List.length_take]
        omega)]
      rw [List.take_append_of_le_length (by
        simp only [List.length_append, List.length_take]
        omega)]
      rw [List.take_append_of_le_length (by
        simp only [List.length_take]
        omega)]
      simp [List.take_take]

theorem escapeListElem_spec_witness :
    escapeListElem ([44] : List Nat) 0 =
      ([44] : List Nat).take 0 ++ [34] ++ escBytes (([44] : List Nat).drop 0) ++ [34] :=
  (escapeListElem_spec [44] 0 (by decide)).2.1 (Or.inr (Or.inr (by decide)))

end Strconv
